import Mathlib

/-!
Shallow embedding of the `iterators-collection` crate.

`src/share/mod.rs` provides two iterators handing out pairs of raw pointers
into one mutable slice: `DoubleIterator` walks every off-diagonal cell of the
`n × n` index grid in row-major order, `SingleLineIterator` walks a single row
with a fixed first index.  `src/filter/mod.rs` provides `Exclude`, a
denylist-filtering adapter over any iterator.

The slice is modelled as a `List α`; the pointers yielded by `next` are
modelled as the pair of indices they are computed from (`nth_ptr i` is just
`i`, dereferencing is `slice[i]?`).  Rust panics / assert failures are
modelled as `none` (for constructors) or a `false` success flag returned
alongside the untouched state (for `set`, whose asserts run before any field
is written).  The state-mutating methods become pure functions from state to
state, and `Iterator::next` returns the yielded item together with the new
state.
-/

set_option maxHeartbeats 1000000
set_option maxRecDepth 4000

/-- State of `share::DoubleIterator<'a, T>`: the borrowed slice and the two
cursor fields `first` and `second`. -/
structure DoubleIterator (α : Type) where
  slice : List α
  first : Nat
  second : Nat
deriving DecidableEq

/-- `DoubleIterator::new`: `assert!(slice.len() >= 2)` (panic modelled as
`none`), then starts the cursor at `first = 0`, `second = 1`. -/
def DoubleIterator.new {α : Type} (slice : List α) : Option (DoubleIterator α) :=
  if 2 ≤ slice.length then some ⟨slice, 0, 1⟩ else none

/-- The `loop` body of `DoubleIterator::increment`, acting on the cursor pair
for a slice of length `n`: increment `second`; on hitting `n`, wrap `second`
to `0` and increment `first`, erroring out when `first` reaches `n`; repeat
while `first == second`.  Returns the updated `(first, second)` together with
`true` for `Ok(())` and `false` for `Err(())` (the Rust method mutates the
fields in place, so the cursor value on `Err` is part of the behaviour). -/
def incrementLoop (n first second : Nat) : (Nat × Nat) × Bool :=
  if second + 1 = n then
    if n ≤ first + 1 then ((first + 1, 0), false)
    else if h : first + 1 = 0 then incrementLoop n (first + 1) 0
    else ((first + 1, 0), true)
  else
    if h : first = second + 1 then incrementLoop n first (second + 1)
    else ((first, second + 1), true)
termination_by first + 2 - second
decreasing_by
  · omega
  · omega

/-- `DoubleIterator::increment`: runs the loop on the current cursor and
stores the resulting indexes. -/
def DoubleIterator.increment {α : Type} (it : DoubleIterator α) : DoubleIterator α × Bool :=
  let r := incrementLoop it.slice.length it.first it.second
  ({ it with first := r.1.1, second := r.1.2 }, r.2)

/-- `<DoubleIterator as Iterator>::next`: returns `None` once `first` equals
the slice length, otherwise yields the pointer pair for `(first, second)` and
advances the cursor, dropping `increment`'s error. -/
def DoubleIterator.next {α : Type} (it : DoubleIterator α) :
    Option (Nat × Nat) × DoubleIterator α :=
  if it.first = it.slice.length then (none, it)
  else (some (it.first, it.second), it.increment.1)

/-- `DoubleIterator::set`: `assert_ne!(i, j)` then
`assert!(i < len && j < len)` then write both fields.  The Bool is the
success flag; `false` models the panic, which fires before any field is
mutated, so the returned state is the untouched input. -/
def DoubleIterator.set {α : Type} (it : DoubleIterator α) (i j : Nat) :
    DoubleIterator α × Bool :=
  if i = j then (it, false)
  else if i < it.slice.length ∧ j < it.slice.length then
    ({ it with first := i, second := j }, true)
  else (it, false)

/-- `<DoubleIterator as ResettableIterator>::reset`: puts the cursor back to
`(0, 1)`. -/
def DoubleIterator.reset {α : Type} (it : DoubleIterator α) : DoubleIterator α :=
  { it with first := 0, second := 1 }

/-- Drives `DoubleIterator::next` up to `fuel` times, collecting the yielded
index pairs; stops at the first `None`. -/
def DoubleIterator.take {α : Type} (it : DoubleIterator α) : Nat → List (Nat × Nat)
  | 0 => []
  | fuel + 1 =>
    match it.next with
    | (none, _) => []
    | (some p, it2) => p :: it2.take fuel

/-- The state after calling `DoubleIterator::next` `k` times. -/
def DoubleIterator.steps {α : Type} (it : DoubleIterator α) : Nat → DoubleIterator α
  | 0 => it
  | k + 1 => (it.next).2.steps k

/-- State of `share::SingleLineIterator<'a, T>`: the borrowed slice, the
fixed index `index` and the moving index `cur`. -/
structure SingleLineIterator (α : Type) where
  slice : List α
  index : Nat
  cur : Nat
deriving DecidableEq

/-- `SingleLineIterator::new`: `assert!(index < slice.len())` (panic modelled
as `none`); the moving index starts at `1` when `index == 0` and at `0`
otherwise. -/
def SingleLineIterator.new {α : Type} (slice : List α) (index : Nat) :
    Option (SingleLineIterator α) :=
  if index < slice.length then
    some ⟨slice, index, if index = 0 then 1 else 0⟩
  else none

/-- `<SingleLineIterator as Iterator>::next`: computes the returned value
(`None` iff `cur >= len`, the pointer pair for `(index, cur)` otherwise),
then unconditionally advances `cur` by one, skipping over `index`. -/
def SingleLineIterator.next {α : Type} (it : SingleLineIterator α) :
    Option (Nat × Nat) × SingleLineIterator α :=
  let returned :=
    if it.slice.length ≤ it.cur then none
    else some (it.index, it.cur)
  let c1 := it.cur + 1
  let c2 := if c1 = it.index then c1 + 1 else c1
  (returned, { it with cur := c2 })

/-- `<SingleLineIterator as ResettableIterator>::reset`: sets `cur` to `0`
unconditionally. -/
def SingleLineIterator.reset {α : Type} (it : SingleLineIterator α) :
    SingleLineIterator α :=
  { it with cur := 0 }

/-- Drives `SingleLineIterator::next` up to `fuel` times, collecting the
yielded index pairs; stops at the first `None`. -/
def SingleLineIterator.take {α : Type} (it : SingleLineIterator α) :
    Nat → List (Nat × Nat)
  | 0 => []
  | fuel + 1 =>
    match it.next with
    | (none, _) => []
    | (some p, it2) => p :: it2.take fuel

/-- The state after calling `SingleLineIterator::next` `k` times. -/
def SingleLineIterator.steps {α : Type} (it : SingleLineIterator α) :
    Nat → SingleLineIterator α
  | 0 => it
  | k + 1 => (it.next).2.steps k

/-- `impl From<DoubleIterator> for SingleLineIterator`: takes the slice over,
`index` becomes the source's `first` and `cur` the source's `second`, with no
validation of either field. -/
def SingleLineIterator.fromDouble {α : Type} (src : DoubleIterator α) :
    SingleLineIterator α :=
  ⟨src.slice, src.first, src.second⟩

/-- State of `filter::Exclude<T>`: the denylist and the not-yet-consumed part
of the wrapped iterator (modelled as the list of items it will still yield). -/
structure Exclude (α : Type) where
  excluded : List α
  cur : List α
deriving DecidableEq

/-- `Exclude::new`: empty denylist. -/
def Exclude.new {α : Type} (iterator : List α) : Exclude α :=
  ⟨[], iterator⟩

/-- `Exclude::with_blacklist`: wraps the iterator with the given denylist. -/
def Exclude.with_blacklist {α : Type} (iterator blacklist : List α) : Exclude α :=
  ⟨blacklist, iterator⟩

/-- The `loop` body of `<Exclude as Iterator>::next`: pull the wrapped
iterator; on `None` stop, otherwise return the item unless the denylist
contains it (`position(|x| x == &i)`), in which case pull again. -/
def excludeNextGo {α : Type} [DecidableEq α] (excluded : List α) :
    List α → Option α × Exclude α
  | [] => (none, ⟨excluded, []⟩)
  | i :: rest =>
    if i ∈ excluded then excludeNextGo excluded rest
    else (some i, ⟨excluded, rest⟩)

/-- `<Exclude as Iterator>::next`. -/
def Exclude.next {α : Type} [DecidableEq α] (e : Exclude α) : Option α × Exclude α :=
  excludeNextGo e.excluded e.cur

/-- Drives `Exclude::next` up to `fuel` times, collecting the yielded items;
stops at the first `None`. -/
def Exclude.take {α : Type} [DecidableEq α] (e : Exclude α) : Nat → List α
  | 0 => []
  | fuel + 1 =>
    match e.next with
    | (none, _) => []
    | (some i, e2) => i :: e2.take fuel

/-- The row-`f` grid cells from column `s` on: pairs `(f, j)` with
`j ∈ [s, n)` and `j ≠ f`, in ascending order of `j`. -/
def rowFrom (n f s : Nat) : List (Nat × Nat) :=
  ((List.range' s (n - s)).filter (fun j => j != f)).map (fun j => (f, j))

/-- All grid cells of rows `g, g+1, …, n-1`, row-major, diagonal removed. -/
def gridFromRow (n g : Nat) : List (Nat × Nat) :=
  (List.range' g (n - g)).flatMap (fun i => rowFrom n i 0)

/-- Every off-diagonal cell of the `n × n` grid in row-major order. -/
def gridPairs (n : Nat) : List (Nat × Nat) :=
  gridFromRow n 0

/-- Closed form of one `increment` loop run from a cursor state that can
yield (`first` and `second` in range and distinct): the next lexicographic
off-diagonal cell, or the `Err` state `(n, 0)` past the last row. -/
theorem incrementLoop_spec (n f s : Nat) (hf : f < n) :
    incrementLoop n f s =
      if s + 1 = n then
        (if f + 1 = n then ((n, 0), false) else ((f + 1, 0), true))
      else if f = s + 1 then
        (if s + 2 = n then ((n, 0), false) else ((f, s + 2), true))
      else ((f, s + 1), true) := by
  rw [incrementLoop]
  by_cases h1 : s + 1 = n
  · rw [if_pos h1, if_pos h1]
    by_cases h2 : f + 1 = n
    · rw [if_pos h2, if_pos (by omega : n ≤ f + 1), h2]
    · rw [if_neg h2, if_neg (by omega : ¬ n ≤ f + 1),
        dif_neg (by omega : ¬ f + 1 = 0)]
  · rw [if_neg h1, if_neg h1]
    by_cases h4 : f = s + 1
    · rw [dif_pos h4, if_pos h4, incrementLoop]
      by_cases h5 : s + 2 = n
      · rw [if_pos (by omega : s + 1 + 1 = n), if_pos (by omega : n ≤ f + 1),
          if_pos h5]
        have : f + 1 = n := by omega
        rw [this]
      · rw [if_neg (by omega : ¬ s + 1 + 1 = n), if_neg h5,
          dif_neg (by omega : ¬ f = s + 1 + 1)]
    · rw [dif_neg h4, if_neg h4]

theorem rowFrom_nil (n f s : Nat) (h : n ≤ s) : rowFrom n f s = [] := by
  simp [rowFrom, Nat.sub_eq_zero_of_le h]

theorem rowFrom_cons (n f s : Nat) (hs : s < n) (hne : s ≠ f) :
    rowFrom n f s = (f, s) :: rowFrom n f (s + 1) := by
  have h1 : n - s = (n - (s + 1)) + 1 := by omega
  rw [rowFrom, h1, List.range'_succ]
  simp [rowFrom, List.filter_cons, hne]

theorem rowFrom_skip (n f : Nat) : rowFrom n f f = rowFrom n f (f + 1) := by
  by_cases hf : f < n
  · have h1 : n - f = (n - (f + 1)) + 1 := by omega
    rw [rowFrom, h1, List.range'_succ]
    simp [rowFrom, List.filter_cons]
  · rw [rowFrom_nil _ _ _ (by omega), rowFrom_nil _ _ _ (by omega)]

theorem gridFromRow_nil (n g : Nat) (h : n ≤ g) : gridFromRow n g = [] := by
  simp [gridFromRow, Nat.sub_eq_zero_of_le h]

theorem gridFromRow_cons (n g : Nat) (h : g < n) :
    gridFromRow n g = rowFrom n g 0 ++ gridFromRow n (g + 1) := by
  have h1 : n - g = (n - (g + 1)) + 1 := by omega
  rw [gridFromRow, h1, List.range'_succ]
  simp [gridFromRow]

theorem DoubleIterator.take_exhausted {α : Type} (slice : List α) (s fuel : Nat) :
    DoubleIterator.take ⟨slice, slice.length, s⟩ fuel = [] := by
  cases fuel <;> simp [DoubleIterator.take, DoubleIterator.next]

/-- Traversal characterization for the grid iterator: from any in-range
off-diagonal cursor `(f, s)`, consuming the iterator yields the rest of row
`f` from column `s` followed by all later rows. -/
theorem DoubleIterator.take_eq {α : Type} (slice : List α) :
    ∀ (fuel f s : Nat), f < slice.length → s < slice.length → f ≠ s →
      (rowFrom slice.length f s ++ gridFromRow slice.length (f + 1)).length ≤ fuel →
      DoubleIterator.take ⟨slice, f, s⟩ fuel
        = rowFrom slice.length f s ++ gridFromRow slice.length (f + 1) := by
  intro fuel
  induction fuel with
  | zero =>
    intro f s hf hs hfs hlen
    rw [rowFrom_cons _ _ _ hs (fun h => hfs h.symm)] at hlen
    simp at hlen
  | succ fuel ih =>
    intro f s hf hs hfs hlen
    have hne : ¬ (f = slice.length) := by omega
    have hstep : DoubleIterator.take ⟨slice, f, s⟩ (fuel + 1)
        = (f, s) :: DoubleIterator.take
            ((⟨slice, f, s⟩ : DoubleIterator α).increment.1) fuel := by
      rw [DoubleIterator.take]
      simp [DoubleIterator.next, hne]
    rw [hstep]
    by_cases h1 : s + 1 = slice.length
    · by_cases h2 : f + 1 = slice.length
      · exact absurd (by omega) hfs
      · have hspec := incrementLoop_spec slice.length f s hf
        rw [if_pos h1, if_neg h2] at hspec
        have hinc : (⟨slice, f, s⟩ : DoubleIterator α).increment.1
            = ⟨slice, f + 1, 0⟩ := by
          simp [DoubleIterator.increment, hspec]
        have hlen2 : (rowFrom slice.length (f + 1) 0
            ++ gridFromRow slice.length (f + 1 + 1)).length ≤ fuel := by
          rw [rowFrom_cons _ _ _ hs (fun h => hfs h.symm),
            rowFrom_nil slice.length f (s + 1) (by omega),
            gridFromRow_cons _ _ (by omega : f + 1 < slice.length)] at hlen
          simp only [List.cons_append, List.nil_append, List.length_append,
            List.length_cons] at hlen ⊢
          omega
        rw [hinc, ih (f + 1) 0 (by omega) (by omega) (by omega) hlen2,
          rowFrom_cons _ _ _ hs (fun h => hfs h.symm),
          rowFrom_nil slice.length f (s + 1) (by omega),
          gridFromRow_cons _ _ (by omega : f + 1 < slice.length)]
        simp
    · by_cases h4 : f = s + 1
      · have hrow : rowFrom slice.length f (s + 1) = rowFrom slice.length f (s + 2) := by
          rw [h4]
          exact rowFrom_skip slice.length (s + 1)
        by_cases h5 : s + 2 = slice.length
        · have hspec := incrementLoop_spec slice.length f s hf
          rw [if_neg h1, if_pos h4, if_pos h5] at hspec
          have hinc : (⟨slice, f, s⟩ : DoubleIterator α).increment.1
              = ⟨slice, slice.length, 0⟩ := by
            simp [DoubleIterator.increment, hspec]
          rw [hinc, DoubleIterator.take_exhausted,
            rowFrom_cons _ _ _ hs (fun h => hfs h.symm), hrow,
            rowFrom_nil slice.length f (s + 2) (by omega),
            gridFromRow_nil _ _ (by omega : slice.length ≤ f + 1)]
          simp
        · have hspec := incrementLoop_spec slice.length f s hf
          rw [if_neg h1, if_pos h4, if_neg h5] at hspec
          have hinc : (⟨slice, f, s⟩ : DoubleIterator α).increment.1
              = ⟨slice, f, s + 2⟩ := by
            simp [DoubleIterator.increment, hspec]
          have hlen2 : (rowFrom slice.length f (s + 2)
              ++ gridFromRow slice.length (f + 1)).length ≤ fuel := by
            rw [rowFrom_cons _ _ _ hs (fun h => hfs h.symm), hrow] at hlen
            simp only [List.cons_append, List.length_append, List.length_cons] at hlen ⊢
            omega
          rw [hinc, ih f (s + 2) hf (by omega) (by omega) hlen2,
            rowFrom_cons _ _ _ hs (fun h => hfs h.symm), hrow]
          simp
      · have hspec := incrementLoop_spec slice.length f s hf
        rw [if_neg h1, if_neg h4] at hspec
        have hinc : (⟨slice, f, s⟩ : DoubleIterator α).increment.1
            = ⟨slice, f, s + 1⟩ := by
          simp [DoubleIterator.increment, hspec]
        have hlen2 : (rowFrom slice.length f (s + 1)
            ++ gridFromRow slice.length (f + 1)).length ≤ fuel := by
          rw [rowFrom_cons _ _ _ hs (fun h => hfs h.symm)] at hlen
          simp only [List.cons_append, List.length_append, List.length_cons] at hlen ⊢
          omega
        rw [hinc, ih f (s + 1) hf (by omega) h4 hlen2,
          rowFrom_cons _ _ _ hs (fun h => hfs h.symm)]
        simp

/-- Taking fewer steps gives an initial segment of taking more. -/
theorem DoubleIterator.take_agree {α : Type} :
    ∀ (a fuel : Nat) (it : DoubleIterator α), a ≤ fuel →
      it.take a = (it.take fuel).take a := by
  intro a
  induction a with
  | zero => intro fuel it _; simp [DoubleIterator.take]
  | succ a ih =>
    intro fuel it h
    obtain ⟨fuel2, rfl⟩ : ∃ k, fuel = k + 1 := ⟨fuel - 1, by omega⟩
    rw [DoubleIterator.take, DoubleIterator.take]
    cases hnext : it.next with
    | mk o it2 =>
      cases o with
      | none => simp
      | some p =>
        simp only [List.take_succ_cons]
        rw [ih fuel2 it2 (by omega)]

theorem gridPairs_head (n : Nat) (h : 2 ≤ n) :
    gridPairs n = rowFrom n 0 1 ++ gridFromRow n 1 := by
  rw [gridPairs, gridFromRow_cons _ _ (by omega), rowFrom_skip]

theorem rowFrom_length_le (n f s : Nat) : (rowFrom n f s).length ≤ n - s := by
  simp only [rowFrom, List.length_map]
  exact le_trans (List.length_filter_le _ _) (le_of_eq (List.length_range' _ _ _))

theorem gridFromRow_length_le (n : Nat) :
    ∀ (k g : Nat), n - g ≤ k → (gridFromRow n g).length ≤ (n - g) * n := by
  intro k
  induction k with
  | zero =>
    intro g h
    rw [gridFromRow_nil n g (by omega)]
    simp
  | succ k ih =>
    intro g h
    by_cases hg : g < n
    · rw [gridFromRow_cons n g hg]
      have h1 := rowFrom_length_le n g 0
      have h2 := ih (g + 1) (by omega)
      have h3 : (n - g) * n = n + (n - (g + 1)) * n := by
        have hgn : n - g = (n - (g + 1)) + 1 := by omega
        rw [hgn]
        ring
      simp only [List.length_append]
      omega
    · rw [gridFromRow_nil n g (by omega)]
      simp

theorem rowFrom_zero_length (n f : Nat) (hf : f < n) :
    (rowFrom n f 0).length = n - 1 := by
  simp only [rowFrom, List.length_map, Nat.sub_zero]
  rw [← List.range_eq_range', ← List.Nodup.erase_eq_filter (List.nodup_range n) f,
    List.length_erase_of_mem (List.mem_range.mpr hf), List.length_range]

theorem gridPairs_length (n : Nat) : (gridPairs n).length = n * (n - 1) := by
  rw [gridPairs, gridFromRow, List.length_flatMap]
  have hconst : ∀ i ∈ List.range' 0 (n - 0),
      (List.length ∘ fun i => rowFrom n i 0) i = n - 1 := by
    intro i hi
    have hin : i < n := by have := List.mem_range'_1.mp hi; omega
    exact rowFrom_zero_length n i hin
  rw [List.map_congr_left hconst, List.map_const', List.sum_replicate,
    List.length_range', smul_eq_mul, Nat.sub_zero]

theorem mem_rowFrom {n f s : Nat} {p : Nat × Nat} :
    p ∈ rowFrom n f s ↔ p.1 = f ∧ s ≤ p.2 ∧ p.2 < n ∧ p.2 ≠ f := by
  cases p with
  | mk a b =>
    simp only [rowFrom, List.mem_map, List.mem_filter, List.mem_range'_1,
      bne_iff_ne, Prod.mk.injEq]
    constructor
    · rintro ⟨j, ⟨⟨hj1, hj2⟩, hjf⟩, rfl, rfl⟩
      exact ⟨rfl, hj1, by omega, hjf⟩
    · rintro ⟨rfl, h1, h2, h3⟩
      exact ⟨b, ⟨⟨h1, by omega⟩, h3⟩, rfl, rfl⟩

theorem mem_gridFromRow {n g : Nat} {p : Nat × Nat} :
    p ∈ gridFromRow n g ↔ g ≤ p.1 ∧ p.1 < n ∧ p.2 < n ∧ p.1 ≠ p.2 := by
  simp only [gridFromRow, List.mem_flatMap, List.mem_range'_1, mem_rowFrom]
  constructor
  · rintro ⟨i, ⟨hgi, hin⟩, h1, h2, h3, h4⟩
    exact ⟨by omega, by omega, h3, by omega⟩
  · rintro ⟨h1, h2, h3, h4⟩
    exact ⟨p.1, ⟨h1, by omega⟩, rfl, by omega, h3, fun he => h4 he.symm⟩

theorem rowFrom_nodup (n f s : Nat) : (rowFrom n f s).Nodup := by
  apply List.Nodup.map (fun a b h => congrArg Prod.snd h)
  exact List.Nodup.filter _ (List.nodup_range' _ _)

theorem gridFromRow_nodup (n g : Nat) : (gridFromRow n g).Nodup := by
  rw [gridFromRow, List.nodup_flatMap]
  refine ⟨fun i _ => rowFrom_nodup n i 0, ?_⟩
  refine List.Pairwise.imp ?_ (List.nodup_range' g (n - g))
  intro a b hab
  intro p hpa hpb
  have h1 := (mem_rowFrom.mp hpa).1
  have h2 := (mem_rowFrom.mp hpb).1
  exact hab (h1 ▸ h2 ▸ rfl)

theorem nodup_count_eq_one {β : Type} [BEq β] [LawfulBEq β] {l : List β} {a : β}
    (nd : l.Nodup) (h : a ∈ l) : l.count a = 1 := by
  induction l with
  | nil => simp at h
  | cons x xs ih =>
    rw [List.count_cons]
    rcases List.mem_cons.mp h with rfl | hmem
    · have hx : a ∉ xs := (List.nodup_cons.mp nd).1
      rw [List.count_eq_zero.mpr hx]
      simp
    · rw [ih (List.nodup_cons.mp nd).2 hmem]
      have hax : ¬ (x = a) := fun he => (List.nodup_cons.mp nd).1 (he ▸ hmem)
      simp [hax]

theorem gridPairs_count (n : Nat) (p : Nat × Nat) :
    (gridPairs n).count p = if p.1 < n ∧ p.2 < n ∧ p.1 ≠ p.2 then 1 else 0 := by
  by_cases h : p.1 < n ∧ p.2 < n ∧ p.1 ≠ p.2
  · rw [if_pos h]
    exact nodup_count_eq_one (gridFromRow_nodup n 0)
      (mem_gridFromRow.mpr ⟨Nat.zero_le _, h.1, h.2.1, h.2.2⟩)
  · rw [if_neg h]
    exact List.count_eq_zero.mpr
      (fun hmem => h ((mem_gridFromRow.mp hmem).2))

/-- A fresh grid iterator consumes to exactly the off-diagonal grid. -/
theorem DoubleIterator.fresh_take {α : Type} (slice : List α) (h2 : 2 ≤ slice.length)
    (fuel : Nat) (hfuel : slice.length * slice.length ≤ fuel) :
    DoubleIterator.take ⟨slice, 0, 1⟩ fuel = gridPairs slice.length := by
  have hrow : rowFrom slice.length 0 1 ++ gridFromRow slice.length 1
      = gridPairs slice.length := (gridPairs_head slice.length h2).symm
  have hb : (rowFrom slice.length 0 1 ++ gridFromRow slice.length 1).length ≤ fuel := by
    rw [hrow, gridPairs_length]
    exact le_trans (Nat.mul_le_mul_left _ (Nat.sub_le _ _)) hfuel
  rw [DoubleIterator.take_eq slice fuel 0 1 (by omega) (by omega) (by omega)
    (by simpa using hb)]
  simpa using hrow

/-- C3: for every sequence of length `n ≥ 2`, the freshly constructed grid
iterator yields exactly `n * (n - 1)` index pairs before exhausting, each
ordered off-diagonal pair of `[0,n) × [0,n)` exactly once (row-major), and
over `[1,2,3,4,5]` the first five pairs dereference to `(1,2)`, `(1,3)`,
`(1,4)`, `(1,5)`, `(2,1)`. -/
theorem DoubleIterator.full_grid_traversal {α : Type} (slice : List α)
    (it : DoubleIterator α) (hit : DoubleIterator.new slice = some it) (fuel : Nat)
    (hfuel : slice.length * slice.length ≤ fuel) :
    it.take fuel = gridPairs slice.length
    ∧ (it.take fuel).length = slice.length * (slice.length - 1)
    ∧ (∀ p : Nat × Nat, (it.take fuel).count p
        = if p.1 < slice.length ∧ p.2 < slice.length ∧ p.1 ≠ p.2 then 1 else 0)
    ∧ (DoubleIterator.new ([1, 2, 3, 4, 5] : List Nat)).map
        (fun d => (d.take 5).map
          (fun p => (([1, 2, 3, 4, 5] : List Nat)[p.1]?, ([1, 2, 3, 4, 5] : List Nat)[p.2]?)))
        = some [(some 1, some 2), (some 1, some 3), (some 1, some 4), (some 1, some 5),
            (some 2, some 1)] := by
  have hn2 : 2 ≤ slice.length := by
    by_contra h
    simp [DoubleIterator.new, h] at hit
  have hit2 : it = ⟨slice, 0, 1⟩ := by
    rw [DoubleIterator.new, if_pos hn2] at hit
    exact (Option.some_inj.mp hit).symm
  subst hit2
  have htake := DoubleIterator.fresh_take slice hn2 fuel hfuel
  refine ⟨htake, ?_, ?_, ?_⟩
  · rw [htake, gridPairs_length]
  · intro p
    rw [htake]
    exact gridPairs_count _ p
  · have hnew : DoubleIterator.new ([1, 2, 3, 4, 5] : List Nat)
        = some ⟨[1, 2, 3, 4, 5], 0, 1⟩ := by decide
    rw [hnew, Option.map_some']
    have h25 : DoubleIterator.take (⟨[1, 2, 3, 4, 5], 0, 1⟩ : DoubleIterator Nat) 25
        = gridPairs 5 := DoubleIterator.fresh_take [1, 2, 3, 4, 5] (by decide) 25 (by decide)
    have h5 : DoubleIterator.take (⟨[1, 2, 3, 4, 5], 0, 1⟩ : DoubleIterator Nat) 5
        = (gridPairs 5).take 5 := by
      rw [DoubleIterator.take_agree 5 25 _ (by omega), h25]
    rw [h5]
    decide

theorem full_grid_traversal_witness :
    (DoubleIterator.new ([1, 2, 3, 4, 5] : List Nat)).map (fun d => (d.take 25).length)
      = some 20 := by
  have hnew : DoubleIterator.new ([1, 2, 3, 4, 5] : List Nat)
      = some ⟨[1, 2, 3, 4, 5], 0, 1⟩ := by decide
  have h := DoubleIterator.full_grid_traversal ([1, 2, 3, 4, 5] : List Nat)
    ⟨[1, 2, 3, 4, 5], 0, 1⟩ hnew 25 (by decide)
  rw [hnew, Option.map_some', h.2.1]
  decide

/-- Traversal characterization for the single-row iterator: from fixed index
`f < n` and any moving index `c ≠ f`, consuming yields the rest of row `f`. -/
theorem SingleLineIterator.take_row_eq {α : Type} (slice : List α) :
    ∀ (fuel f c : Nat), f < slice.length → c ≠ f → slice.length - c ≤ fuel →
      SingleLineIterator.take ⟨slice, f, c⟩ fuel = rowFrom slice.length f c := by
  intro fuel
  induction fuel with
  | zero =>
    intro f c hf hc hlen
    rw [rowFrom_nil _ _ _ (by omega)]
    rfl
  | succ fuel ih =>
    intro f c hf hc hlen
    by_cases hcl : slice.length ≤ c
    · rw [rowFrom_nil _ _ _ hcl, SingleLineIterator.take]
      simp [SingleLineIterator.next, hcl]
    · by_cases hskip : c + 1 = f
      · have hstep : SingleLineIterator.take ⟨slice, f, c⟩ (fuel + 1)
            = (f, c) :: SingleLineIterator.take ⟨slice, f, c + 1 + 1⟩ fuel := by
          rw [SingleLineIterator.take]
          simp [SingleLineIterator.next, hcl, hskip]
        have hrow2 : rowFrom slice.length f (c + 1) = rowFrom slice.length f (c + 2) := by
          rw [← hskip]
          have := rowFrom_skip slice.length (c + 1)
          rw [hskip] at this
          rw [← hskip] at this
          exact this
        rw [hstep, ih f (c + 2) hf (by omega) (by omega),
          rowFrom_cons _ _ _ (by omega) hc, hrow2]
      · have hstep : SingleLineIterator.take ⟨slice, f, c⟩ (fuel + 1)
            = (f, c) :: SingleLineIterator.take ⟨slice, f, c + 1⟩ fuel := by
          rw [SingleLineIterator.take]
          simp [SingleLineIterator.next, hcl, hskip]
        rw [hstep, ih f (c + 1) hf (by omega) (by omega),
          rowFrom_cons _ _ _ (by omega) hc]

theorem filter_ne_range_length (n f : Nat) (hf : f < n) :
    ((List.range n).filter (fun j => j != f)).length = n - 1 := by
  rw [← List.Nodup.erase_eq_filter (List.nodup_range n) f,
    List.length_erase_of_mem (List.mem_range.mpr hf), List.length_range]

/-- The fresh single-row iterator's output list is row `f` of the grid. -/
theorem rowFrom_fresh (n f : Nat) (hf : f < n) :
    rowFrom n f (if f = 0 then 1 else 0)
      = ((List.range n).filter (fun j => j != f)).map (fun j => (f, j)) := by
  by_cases h0 : f = 0
  · subst h0
    obtain ⟨m, rfl⟩ : ∃ m, n = m + 1 := ⟨n - 1, by omega⟩
    rw [if_pos rfl, rowFrom, List.range_eq_range', List.range'_succ,
      List.filter_cons_of_neg (by simp)]
    simp
  · rw [if_neg h0, rowFrom, Nat.sub_zero, List.range_eq_range']

/-- C4: a freshly constructed single-row iterator with fixed index `f` over a
sequence of length `n` yields exactly `n - 1` pairs, each with first index
`f`, and the moving index visits every value of `[0,n)` except `f` exactly
once in strictly ascending order. -/
theorem SingleLineIterator.fresh_row {α : Type} (slice : List α) (f : Nat)
    (it : SingleLineIterator α) (hit : SingleLineIterator.new slice f = some it)
    (fuel : Nat) (hfuel : slice.length ≤ fuel) :
    (it.take fuel).length = slice.length - 1
    ∧ (∀ p ∈ it.take fuel, p.1 = f)
    ∧ (it.take fuel).map Prod.snd = (List.range slice.length).filter (fun j => j != f)
    ∧ ((it.take fuel).map Prod.snd).Pairwise (· < ·)
    ∧ (∀ j : Nat, ((it.take fuel).map Prod.snd).count j
        = if j < slice.length ∧ j ≠ f then 1 else 0) := by
  have hf : f < slice.length := by
    by_contra h
    simp [SingleLineIterator.new, h] at hit
  have hit2 : it = ⟨slice, f, if f = 0 then 1 else 0⟩ := by
    rw [SingleLineIterator.new, if_pos hf] at hit
    exact (Option.some_inj.mp hit).symm
  subst hit2
  have hc0 : (if f = 0 then 1 else 0) ≠ f := by
    by_cases h0 : f = 0 <;> simp [h0]
    omega
  have htake : SingleLineIterator.take ⟨slice, f, if f = 0 then 1 else 0⟩ fuel
      = ((List.range slice.length).filter (fun j => j != f)).map (fun j => (f, j)) := by
    rw [SingleLineIterator.take_row_eq slice fuel f _ hf hc0 (by omega),
      rowFrom_fresh slice.length f hf]
  have hsnd : (SingleLineIterator.take ⟨slice, f, if f = 0 then 1 else 0⟩ fuel).map Prod.snd
      = (List.range slice.length).filter (fun j => j != f) := by
    rw [htake, List.map_map]
    simp
  have hnd : ((List.range slice.length).filter (fun j => j != f)).Nodup :=
    List.Nodup.filter _ (List.nodup_range slice.length)
  refine ⟨?_, ?_, hsnd, ?_, ?_⟩
  · rw [htake, List.length_map, filter_ne_range_length slice.length f hf]
  · intro p hp
    rw [htake] at hp
    obtain ⟨j, _, rfl⟩ := List.mem_map.mp hp
    rfl
  · rw [hsnd]
    exact List.Pairwise.sublist (List.filter_sublist _) (List.pairwise_lt_range _)
  · intro j
    rw [hsnd]
    by_cases h : j < slice.length ∧ j ≠ f
    · rw [if_pos h]
      exact nodup_count_eq_one hnd
        (List.mem_filter.mpr ⟨List.mem_range.mpr h.1, by simp [h.2]⟩)
    · rw [if_neg h]
      refine List.count_eq_zero.mpr (fun hmem => h ?_)
      have h1 := List.mem_range.mp (List.mem_filter.mp hmem).1
      have h2 := (List.mem_filter.mp hmem).2
      simp at h2
      exact ⟨h1, h2⟩

theorem fresh_row_witness :
    ((⟨[1, 2, 3], 1, 0⟩ : SingleLineIterator Nat).take 3).length = 2 :=
  (SingleLineIterator.fresh_row [1, 2, 3] 1 ⟨[1, 2, 3], 1, 0⟩ (by decide) 3
    (by decide)).1

theorem takeWhile_append_all {β : Type} (p : β → Bool) :
    ∀ (l1 l2 : List β), (∀ a ∈ l1, p a = true) →
      (l1 ++ l2).takeWhile p = l1 ++ l2.takeWhile p := by
  intro l1
  induction l1 with
  | nil => simp
  | cons a l ih =>
    intro l2 h
    rw [List.cons_append, List.takeWhile_cons, if_pos (h a (by simp)),
      ih l2 (fun b hb => h b (by simp [hb]))]
    rfl

theorem takeWhile_eq_nil_of_all {β : Type} (p : β → Bool) (l : List β)
    (h : ∀ a ∈ l, p a = false) : l.takeWhile p = [] := by
  cases l with
  | nil => rfl
  | cons a t => rw [List.takeWhile_cons, if_neg (by simp [h a (by simp)])]

/-- C5: converting a grid iterator that is mid-traversal (in-range,
off-diagonal cursor) into a single-row iterator keeps the sequence, turns
`first` into the fixed index and `second` into the moving index, and the
converted iterator yields exactly the pairs the grid iterator would still
have yielded for the current row. -/
theorem fromDouble_mid_traversal {α : Type} (it : DoubleIterator α)
    (hf : it.first < it.slice.length) (hs : it.second < it.slice.length)
    (hne : it.first ≠ it.second) (fuel : Nat)
    (hfuel : it.slice.length * it.slice.length ≤ fuel) :
    (SingleLineIterator.fromDouble it).slice = it.slice
    ∧ (SingleLineIterator.fromDouble it).index = it.first
    ∧ (SingleLineIterator.fromDouble it).cur = it.second
    ∧ (SingleLineIterator.fromDouble it).take fuel
        = (it.take fuel).takeWhile (fun p => p.1 == it.first) := by
  obtain ⟨slice, f, s⟩ := it
  simp only at hf hs hne hfuel
  refine ⟨rfl, rfl, rfl, ?_⟩
  have hn1 : slice.length ≤ slice.length * slice.length :=
    Nat.le_mul_of_pos_left _ (by omega)
  have hsingle : SingleLineIterator.take ⟨slice, f, s⟩ fuel = rowFrom slice.length f s :=
    SingleLineIterator.take_row_eq slice fuel f s hf (fun h => hne h.symm) (by omega)
  have hA := rowFrom_length_le slice.length f s
  have hB := gridFromRow_length_le slice.length slice.length (f + 1) (by omega)
  have hC : (slice.length - (f + 1)) * slice.length
      ≤ (slice.length - 1) * slice.length :=
    Nat.mul_le_mul_right _ (by omega)
  have hD : slice.length + (slice.length - 1) * slice.length
      = slice.length * slice.length := by
    obtain ⟨m, hm⟩ : ∃ m, slice.length = m + 1 := ⟨slice.length - 1, by omega⟩
    simp [hm]
    ring
  have hdouble : DoubleIterator.take ⟨slice, f, s⟩ fuel
      = rowFrom slice.length f s ++ gridFromRow slice.length (f + 1) := by
    apply DoubleIterator.take_eq slice fuel f s hf hs hne
    simp only [List.length_append]
    omega
  rw [SingleLineIterator.fromDouble, hsingle, hdouble,
    takeWhile_append_all _ _ _
      (fun p hp => by simp [(mem_rowFrom.mp hp).1]),
    takeWhile_eq_nil_of_all _ _
      (fun p hp => by
        have := (mem_gridFromRow.mp hp).1
        simp only [beq_eq_false_iff_ne, ne_eq]
        omega),
    List.append_nil]

theorem fromDouble_mid_witness :
    (SingleLineIterator.fromDouble (⟨[1, 2, 3], 2, 0⟩ : DoubleIterator Nat)).cur = 0 :=
  (fromDouble_mid_traversal ⟨[1, 2, 3], 2, 0⟩ (by decide) (by decide) (by decide) 9
    (by decide)).2.2.1

/-- C7: from any cursor state whatsoever, `reset()` puts the grid iterator in
exactly the freshly-constructed state, so consuming after `reset()` yields
the same pair sequence as consuming the fresh iterator. -/
theorem DoubleIterator.reset_then_consume {α : Type} (it : DoubleIterator α)
    (h2 : 2 ≤ it.slice.length) (fuel : Nat) (d : DoubleIterator α)
    (hd : DoubleIterator.new it.slice = some d) :
    (it.reset).take fuel = d.take fuel
    ∧ DoubleIterator.new it.slice = some it.reset := by
  have hd2 : d = ⟨it.slice, 0, 1⟩ := by
    rw [DoubleIterator.new, if_pos h2] at hd
    exact (Option.some_inj.mp hd).symm
  subst hd2
  exact ⟨rfl, by rw [DoubleIterator.new, if_pos h2]; rfl⟩

theorem reset_then_consume_witness :
    ((⟨[1, 2, 3], 2, 0⟩ : DoubleIterator Nat).reset).take 9
      = (⟨[1, 2, 3], 0, 1⟩ : DoubleIterator Nat).take 9
    ∧ DoubleIterator.new [1, 2, 3]
      = some ((⟨[1, 2, 3], 2, 0⟩ : DoubleIterator Nat).reset) :=
  DoubleIterator.reset_then_consume ⟨[1, 2, 3], 2, 0⟩ (by decide) 9
    ⟨[1, 2, 3], 0, 1⟩ (by decide)

/-- C8: `set(i, j)` fails exactly when `i = j` or either index is out of
range; on failure the cursor is untouched, on success it becomes `(i, j)`. -/
theorem DoubleIterator.set_spec {α : Type} (it : DoubleIterator α) (i j : Nat) :
    ((it.set i j).2 = false ↔ (i = j ∨ it.slice.length ≤ i ∨ it.slice.length ≤ j))
    ∧ ((it.set i j).2 = false → (it.set i j).1 = it)
    ∧ ((it.set i j).2 = true → (it.set i j).1 = ⟨it.slice, i, j⟩) := by
  by_cases hij : i = j
  · refine ⟨by simp [DoubleIterator.set, hij], fun _ => by simp [DoubleIterator.set, hij],
      fun ht => ?_⟩
    rw [DoubleIterator.set, if_pos hij] at ht
    simp at ht
  · by_cases hr : i < it.slice.length ∧ j < it.slice.length
    · refine ⟨?_, fun hf => ?_, fun _ => ?_⟩
      · rw [DoubleIterator.set, if_neg hij, if_pos hr]
        simp
        omega
      · rw [DoubleIterator.set, if_neg hij, if_pos hr] at hf
        simp at hf
      · rw [DoubleIterator.set, if_neg hij, if_pos hr]
    · refine ⟨?_, fun _ => ?_, fun ht => ?_⟩
      · rw [DoubleIterator.set, if_neg hij, if_neg hr]
        simp
        omega
      · rw [DoubleIterator.set, if_neg hij, if_neg hr]
      · rw [DoubleIterator.set, if_neg hij, if_neg hr] at ht
        simp at ht

/-- C9: for both iterators, once `next` reports exhaustion — for the grid
iterator exactly when `first` equals the slice length — every later `next`
also reports exhaustion. -/
theorem exhaustion_idempotent {α : Type} :
    (∀ it : DoubleIterator α,
      ((it.next).1 = none ↔ it.first = it.slice.length)
      ∧ ((it.next).1 = none → ∀ k, ((it.steps k).next).1 = none))
    ∧ (∀ s : SingleLineIterator α,
      ((s.next).1 = none ↔ s.slice.length ≤ s.cur)
      ∧ ((s.next).1 = none → ∀ k, ((s.steps k).next).1 = none)) := by
  constructor
  · intro it
    constructor
    · rw [DoubleIterator.next]
      by_cases h : it.first = it.slice.length
      · simp [h]
      · simp [h]
    · intro hnone k
      have hfix : it.next = (none, it) := by
        rw [DoubleIterator.next] at hnone ⊢
        by_cases h : it.first = it.slice.length
        · rw [if_pos h]
        · rw [if_neg h] at hnone
          simp at hnone
      have hsteps : ∀ m, it.steps m = it := by
        intro m
        induction m with
        | zero => rfl
        | succ m ih =>
          rw [DoubleIterator.steps, hfix]
          exact ih
      rw [hsteps k, hfix]
  · intro s
    have hiff : ∀ t : SingleLineIterator α,
        ((t.next).1 = none ↔ t.slice.length ≤ t.cur) := by
      intro t
      by_cases h : t.slice.length ≤ t.cur
      · simp [SingleLineIterator.next, h]
      · simp [SingleLineIterator.next, h]
    refine ⟨hiff s, ?_⟩
    intro hnone k
    have hpres : ∀ t : SingleLineIterator α, t.slice.length ≤ t.cur →
        (t.next).2.slice.length ≤ (t.next).2.cur := by
      intro t ht
      by_cases hh : t.cur + 1 = t.index
      · simp [SingleLineIterator.next, hh]
        omega
      · simp [SingleLineIterator.next, hh]
        omega
    have key : ∀ m (t : SingleLineIterator α), t.slice.length ≤ t.cur →
        (t.steps m).slice.length ≤ (t.steps m).cur := by
      intro m
      induction m with
      | zero => intro t ht; exact ht
      | succ m ih =>
        intro t ht
        rw [SingleLineIterator.steps]
        exact ih _ (hpres t ht)
    exact (hiff _).mpr (key k s ((hiff s).mp hnone))

theorem exhaustion_idempotent_witness :
    (((⟨[1, 2], 2, 0⟩ : DoubleIterator Nat).steps 3).next).1 = none :=
  ((exhaustion_idempotent.1 (⟨[1, 2], 2, 0⟩ : DoubleIterator Nat)).2 (by decide)) 3

/-- C6: the `From` conversion validates nothing: converting a grid iterator
in the exhausted state (`first = n`, `second = 0`) gives a single-row
iterator with the out-of-range fixed index `n` and moving index `0`, whose
first `next` does not report exhaustion but yields the pair `(n, 0)`, where
index `n` is past the end of the sequence (no bounds check); the exhausted
state is reachable: over `[0, 1]` two `next` calls reach cursor `(2, 0)`. -/
theorem fromDouble_no_validation {α : Type} (it : DoubleIterator α)
    (h2 : 2 ≤ it.slice.length) (hfirst : it.first = it.slice.length)
    (hsecond : it.second = 0) :
    (SingleLineIterator.fromDouble it).index = it.slice.length
    ∧ (SingleLineIterator.fromDouble it).cur = 0
    ∧ ((SingleLineIterator.fromDouble it).next).1 = some (it.slice.length, 0)
    ∧ it.slice[(SingleLineIterator.fromDouble it).index]? = none
    ∧ (DoubleIterator.new ([0, 1] : List Nat)).map (fun d => ((d.next).2.next).2)
        = some ⟨[0, 1], 2, 0⟩ := by
  have hlen0 : ¬ (it.slice.length ≤ 0) := by omega
  refine ⟨hfirst, hsecond, ?_, ?_, ?_⟩
  · simp [SingleLineIterator.fromDouble, SingleLineIterator.next, hfirst, hsecond, hlen0]
  · rw [List.getElem?_eq_none]
    simp [SingleLineIterator.fromDouble, hfirst]
  · have hnew : DoubleIterator.new ([0, 1] : List Nat) = some ⟨[0, 1], 0, 1⟩ := by
      decide
    rw [hnew, Option.map_some']
    simp [DoubleIterator.next, DoubleIterator.increment, incrementLoop]

theorem fromDouble_no_validation_witness :
    ((SingleLineIterator.fromDouble (⟨[10, 20], 2, 0⟩ : DoubleIterator Nat)).next).1
      = some (2, 0) :=
  (fromDouble_no_validation (⟨[10, 20], 2, 0⟩ : DoubleIterator Nat) (by decide)
    (by decide) (by decide)).2.2.1

/-- One unfolding of `Exclude.take` at positive fuel. -/
theorem Exclude.take_succ {α : Type} [DecidableEq α] (e : Exclude α) (fuel : Nat) :
    e.take (fuel + 1)
      = match e.next with
        | (none, _) => []
        | (some i, e2) => i :: e2.take fuel := rfl

theorem Exclude.next_head {α : Type} [DecidableEq α] (ex : List α) :
    ∀ l : List α, ((Exclude.mk ex l).next).1
      = (l.filter (fun i => decide (i ∉ ex))).head? := by
  intro l
  induction l with
  | nil => rfl
  | cons i rest ih =>
    by_cases h : i ∈ ex
    · rw [List.filter_cons_of_neg (by simp [h])]
      rw [Exclude.next] at ih ⊢
      simp only [excludeNextGo, if_pos h]
      exact ih
    · rw [List.filter_cons_of_pos (by simp [h])]
      rw [Exclude.next]
      simp only [excludeNextGo, if_neg h]
      rfl

theorem Exclude.take_filter {α : Type} [DecidableEq α] :
    ∀ (l ex : List α) (fuel : Nat), l.length ≤ fuel →
      (Exclude.mk ex l).take fuel = l.filter (fun i => decide (i ∉ ex)) := by
  intro l
  induction l with
  | nil =>
    intro ex fuel h
    cases fuel with
    | zero => rfl
    | succ fuel => rfl
  | cons i rest ih =>
    intro ex fuel h
    simp only [List.length_cons] at h
    obtain ⟨fuel2, rfl⟩ : ∃ k, fuel = k + 1 := ⟨fuel - 1, by omega⟩
    by_cases hmem : i ∈ ex
    · have hnext : (Exclude.mk ex (i :: rest)).next = (Exclude.mk ex rest).next := by
        rw [Exclude.next, Exclude.next]
        simp only [excludeNextGo, if_pos hmem]
      rw [Exclude.take_succ, hnext, ← Exclude.take_succ,
        ih ex (fuel2 + 1) (by omega),
        List.filter_cons_of_neg (by simp [hmem])]
    · have hnext : (Exclude.mk ex (i :: rest)).next = (some i, Exclude.mk ex rest) := by
        rw [Exclude.next]
        simp only [excludeNextGo, if_neg hmem]
      rw [Exclude.take_succ, hnext, List.filter_cons_of_pos (by simp [hmem])]
      exact congrArg _ (ih ex fuel2 (by omega))

/-- C10: `Exclude::next` pulls the wrapped iterator and discards denylisted
values, so full consumption equals filtering the wrapped stream by
non-membership in the denylist; over `[1,2,3,4,5]` with denylist `{3,5}` the
output is exactly `[1,2,4]`. -/
theorem Exclude.denylist_filter {α : Type} [DecidableEq α] (ex l : List α)
    (fuel : Nat) (hfuel : l.length ≤ fuel) :
    (Exclude.with_blacklist l ex).take fuel = l.filter (fun i => decide (i ∉ ex))
    ∧ ((Exclude.with_blacklist l ex).next).1
        = (l.filter (fun i => decide (i ∉ ex))).head?
    ∧ (Exclude.with_blacklist ([1, 2, 3, 4, 5] : List Nat) [3, 5]).take 5 = [1, 2, 4] :=
  ⟨Exclude.take_filter l ex fuel hfuel, Exclude.next_head ex l, by decide⟩

theorem denylist_filter_witness :
    (Exclude.with_blacklist ([1, 2, 3, 4, 5] : List Nat) [3, 5]).take 5 = [1, 2, 4] :=
  (Exclude.denylist_filter [3, 5] [1, 2, 3, 4, 5] 5 (by decide)).2.2

/-- C1 is violated by the code: after `reset()` on a single-row iterator with
fixed index 0, the very next call yields the index pair `(0, 0)` — both
pointers address element 0, so `safe_for_each` would pass two mutable
references to the same element to the callback. -/
theorem SingleLineIterator.reset_aliasing_bug :
    (SingleLineIterator.new ([10, 20] : List Nat) 0).map
      (fun it => ((it.reset).next).1) = some (some (0, 0))
    ∧ (SingleLineIterator.new ([10, 20] : List Nat) 0).map
      (fun it => ((it.reset).next).1.map
        (fun p => (([10, 20] : List Nat)[p.1]?, ([10, 20] : List Nat)[p.2]?)))
      = some (some (some 10, some 10)) := by
  decide

/-- C2 is violated by the code: `reset` writes `cur = 0` unconditionally,
while construction with fixed index 0 starts the moving index at 1, so after
`reset()` the moving index is 0 (not its initial value 1) and consumption
after reset gains the extra self-paired `(0, 0)` pair. -/
theorem SingleLineIterator.reset_initial_bug :
    (SingleLineIterator.new ([10, 20] : List Nat) 0).map
      (fun it => (it.cur, (it.reset).cur)) = some (1, 0)
    ∧ (SingleLineIterator.new ([10, 20] : List Nat) 0).map
      (fun it => (it.reset).take 5) = some [(0, 0), (0, 1)]
    ∧ (SingleLineIterator.new ([10, 20] : List Nat) 0).map
      (fun it => it.take 5) = some [(0, 1)] := by
  decide

theorem set_spec_witness :
    ((⟨[1, 2], 0, 1⟩ : DoubleIterator Nat).set 1 1).2 = false :=
  (DoubleIterator.set_spec (⟨[1, 2], 0, 1⟩ : DoubleIterator Nat) 1 1).1.mpr (Or.inl rfl)
